import Mathlib

/-
Verification of the FSSP ring-solver sources against their specification.
The Python sources (ruleset_utils.py, find_rulesets.py,
find_firing_exp_rulesets.py, find_exp_from_base_ruleset.py) are embedded
shallowly: segments are lists of characters, rulesets (Python dicts from
window strings to state characters) are association lists with Python's
insert-or-overwrite update semantics, and the in-place mutation plus the
recursive branching of the search engine are made explicit by returning
the mutated ruleset together with the list of branch rulesets.
-/

namespace FsspRing

/-- Segment: a string of one-character states, modeled as a list of
characters (Python strings are indexed/sliced exactly like lists here). -/
abbrev Seg := List Char

/-- Ruleset: a Python dict mapping windows (minimal segments) to states,
modeled as an association list in insertion order with unique keys. -/
abbrev Ruleset := List (Seg × Char)

/-- Dict lookup: first entry whose key matches (keys are unique in any list
built by `rupdate1`, mirroring Python dict semantics). -/
def rlookup {β : Type} : List (Seg × β) → Seg → Option β
  | [], _ => none
  | (k, v) :: rest, key => if key = k then some v else rlookup rest key

/-- Keys of a dict, in order. -/
def ukeys {β : Type} (m : List (Seg × β)) : List Seg := m.map Prod.fst

/-- Models Python `m[k] = v`: overwrite in place if the key exists
(keeping its position), otherwise append the new entry. -/
def rupdate1 {β : Type} : List (Seg × β) → Seg → β → List (Seg × β)
  | [], k, v => [(k, v)]
  | (a, b) :: rest, k, v =>
    if a = k then (k, v) :: rest else (a, b) :: rupdate1 rest k v

/-- Models Python `m.update(l)`: apply `m[k] = v` for each pair of `l` in
order (later entries of `l` win). -/
def rupdate {β : Type} (m : List (Seg × β)) (l : List (Seg × β)) : List (Seg × β) :=
  l.foldl (fun acc p => rupdate1 acc p.1 p.2) m

theorem rlookup_append {β : Type} (m l : List (Seg × β)) (k : Seg) :
    rlookup (m ++ l) k =
      match rlookup m k with
      | some v => some v
      | none => rlookup l k := by
  induction m with
  | nil => simp [rlookup]
  | cons p rest ih =>
    obtain ⟨a, b⟩ := p
    by_cases h : k = a <;> simp [rlookup, h, ih]

theorem rlookup_eq_none {β : Type} (m : List (Seg × β)) (k : Seg) (h : k ∉ ukeys m) :
    rlookup m k = none := by
  induction m with
  | nil => rfl
  | cons p rest ih =>
    obtain ⟨a, b⟩ := p
    simp only [ukeys, List.map_cons, List.mem_cons] at h
    push_neg at h
    simp only [rlookup, if_neg h.1]
    exact ih h.2

theorem rlookup_of_nodup_mem {β : Type} (m : List (Seg × β)) (k : Seg) (v : β)
    (hn : (ukeys m).Nodup) (h : (k, v) ∈ m) : rlookup m k = some v := by
  induction m with
  | nil => simp at h
  | cons p rest ih =>
    obtain ⟨a, b⟩ := p
    simp only [ukeys, List.map_cons, List.nodup_cons] at hn
    rcases List.mem_cons.mp h with h1 | h2
    · cases h1
      simp [rlookup]
    · have hka : k ≠ a := by
        rintro rfl
        exact hn.1 (List.mem_map_of_mem Prod.fst h2)
      simp [rlookup, hka, ih hn.2 h2]

theorem rlookup_rupdate1_self {β : Type} (m : List (Seg × β)) (k : Seg) (v : β) :
    rlookup (rupdate1 m k v) k = some v := by
  induction m with
  | nil => simp [rupdate1, rlookup]
  | cons p rest ih =>
    obtain ⟨a, b⟩ := p
    by_cases h : a = k
    · subst h
      simp [rupdate1, rlookup]
    · simp only [rupdate1, if_neg h, rlookup, if_neg (Ne.symm h)]
      exact ih

theorem rlookup_rupdate1_ne {β : Type} (m : List (Seg × β)) (k : Seg) (v : β)
    (k' : Seg) (h : k' ≠ k) : rlookup (rupdate1 m k v) k' = rlookup m k' := by
  induction m with
  | nil => simp [rupdate1, rlookup, h]
  | cons p rest ih =>
    obtain ⟨a, b⟩ := p
    by_cases ha : a = k
    · subst ha
      by_cases hk : k' = a
      · exact absurd hk h
      · simp [rupdate1, rlookup, h, hk]
    · by_cases hk : k' = a
      · simp [rupdate1, if_neg ha, rlookup, hk]
      · simp only [rupdate1, if_neg ha, rlookup, if_neg hk]
        exact ih

theorem rlookup_rupdate {β : Type} (l m : List (Seg × β)) (k : Seg) :
    rlookup (rupdate m l) k =
      match rlookup l.reverse k with
      | some v => some v
      | none => rlookup m k := by
  induction l generalizing m with
  | nil => simp [rupdate, rlookup]
  | cons p rest ih =>
    obtain ⟨a, b⟩ := p
    have step : rupdate m ((a, b) :: rest) = rupdate (rupdate1 m a b) rest := rfl
    rw [step, ih, List.reverse_cons, rlookup_append]
    cases hr : rlookup rest.reverse k with
    | some v => rfl
    | none =>
      by_cases hk : k = a
      · subst hk
        simp [rlookup, rlookup_rupdate1_self]
      · simp [rlookup, hk, rlookup_rupdate1_ne m a b k hk]

theorem ukeys_reverse {β : Type} (m : List (Seg × β)) :
    ukeys m.reverse = (ukeys m).reverse := by
  simp [ukeys, List.map_reverse]

theorem rlookup_rupdate_of_not_mem {β : Type} (m l : List (Seg × β)) (k : Seg)
    (h : k ∉ ukeys l) : rlookup (rupdate m l) k = rlookup m k := by
  rw [rlookup_rupdate, rlookup_eq_none l.reverse k (by simpa [ukeys_reverse] using h)]

theorem rlookup_rupdate_of_mem {β : Type} (m l : List (Seg × β)) (k : Seg) (v : β)
    (hn : (ukeys l).Nodup) (h : (k, v) ∈ l) : rlookup (rupdate m l) k = some v := by
  rw [rlookup_rupdate,
    rlookup_of_nodup_mem l.reverse k v
      (by rw [ukeys_reverse]; exact List.nodup_reverse.mpr hn)
      (List.mem_reverse.mpr h)]

/-- Deduplication keeping first occurrences, with an accumulator of already
seen elements; used to model the Python `set` of minimal segments (Python
set order is unspecified; first-occurrence order is fixed here, and no
claim depends on the order). -/
def dedupFAux : List Seg → List Seg → List Seg
  | [], _ => []
  | s :: rest, seen =>
    if s ∈ seen then dedupFAux rest seen else s :: dedupFAux rest (s :: seen)

def dedupF (l : List Seg) : List Seg := dedupFAux l []

theorem mem_dedupFAux (l : List Seg) (seen : List Seg) (x : Seg) :
    x ∈ dedupFAux l seen ↔ x ∈ l ∧ x ∉ seen := by
  induction l generalizing seen with
  | nil => simp [dedupFAux]
  | cons s rest ih =>
    by_cases hs : s ∈ seen
    · simp only [dedupFAux, if_pos hs, ih, List.mem_cons]
      constructor
      · rintro ⟨h1, h2⟩
        exact ⟨Or.inr h1, h2⟩
      · rintro ⟨h1 | h1, h2⟩
        · exact absurd hs (h1 ▸ h2)
        · exact ⟨h1, h2⟩
    · simp only [dedupFAux, if_neg hs, List.mem_cons, ih]
      constructor
      · rintro (rfl | ⟨h1, h2⟩)
        · exact ⟨Or.inl rfl, hs⟩
        · push_neg at h2
          exact ⟨Or.inr h1, h2.2⟩
      · rintro ⟨rfl | h1, h2⟩
        · exact Or.inl rfl
        · by_cases hxs : x = s
          · exact Or.inl hxs
          · exact Or.inr ⟨h1, by simp [hxs, h2]⟩

theorem nodup_dedupFAux (l : List Seg) (seen : List Seg) : (dedupFAux l seen).Nodup := by
  induction l generalizing seen with
  | nil => simp [dedupFAux]
  | cons s rest ih =>
    by_cases hs : s ∈ seen
    · simpa [dedupFAux, hs] using ih seen
    · simp only [dedupFAux, if_neg hs, List.nodup_cons]
      refine ⟨fun hmem => ?_, ih (s :: seen)⟩
      exact ((mem_dedupFAux rest (s :: seen) s).mp hmem).2 (List.mem_cons_self s seen)

theorem mem_dedupF (l : List Seg) (x : Seg) : x ∈ dedupF l ↔ x ∈ l := by
  rw [dedupF, mem_dedupFAux]
  simp

theorem nodup_dedupF (l : List Seg) : (dedupF l).Nodup := nodup_dedupFAux l []

/-- Models Python `range(0, n, g)` (for `g ≥ 1`): the multiples of `g`
below `n`, i.e. `⌈n/g⌉` of them. -/
def rangeStep (n g : Nat) : List Nat := (List.range ((n + g - 1) / g)).map (fun j => j * g)

theorem rangeStep_zero (g : Nat) : rangeStep 0 g = [] := by
  match g with
  | 0 => rfl
  | g + 1 =>
    have h : g / (g + 1) = 0 := Nat.div_eq_of_lt (by omega)
    simp [rangeStep, h]

theorem rangeStep_add (g n : Nat) (hg : 1 ≤ g) :
    rangeStep (g + n) g = 0 :: (rangeStep n g).map (fun i => i + g) := by
  have harg : g + n + g - 1 = (n + g - 1) + g := by omega
  have hdiv : (g + n + g - 1) / g = (n + g - 1) / g + 1 := by
    rw [harg, Nat.add_div_right _ (by omega)]
  rw [rangeStep, hdiv, List.range_succ_eq_map, List.map_cons, List.map_map,
    rangeStep, List.map_map]
  congr 1
  · simp
  · apply List.map_congr_left
    intro j _
    simp [Function.comp, Nat.succ_mul]

theorem mem_rangeStep (n g i : Nat) (hg : 1 ≤ g) :
    i ∈ rangeStep n g ↔ ∃ j, i = j * g ∧ j * g < n := by
  simp only [rangeStep, List.mem_map, List.mem_range]
  constructor
  · rintro ⟨j, hj, rfl⟩
    refine ⟨j, rfl, ?_⟩
    have h1 : (j + 1) * g ≤ ((n + g - 1) / g) * g :=
      Nat.mul_le_mul_right g (by omega)
    have h2 : ((n + g - 1) / g) * g ≤ n + g - 1 := Nat.div_mul_le_self _ g
    have h3 : (j + 1) * g = j * g + g := by ring
    omega
  · rintro ⟨j, rfl, hlt⟩
    refine ⟨j, ?_, rfl⟩
    have h1 : j + 1 ≤ (n + g - 1) / g := by
      rw [Nat.le_div_iff_mul_le (by omega : 0 < g)]
      have h3 : (j + 1) * g = j * g + g := by ring
      omega
    omega

/-- Models `get_mseg_len` of ruleset_utils.py: the length of the first key.
Python raises IndexError on an empty ruleset (a fatal contract violation per
the spec); the empty case is modeled as 0 and never used by the claims. -/
def get_mseg_len (rs : Ruleset) : Nat :=
  match rs with
  | [] => 0
  | p :: _ => p.1.length

/-- Models `get_msegs` of ruleset_utils.py: the set of minimal segments
`seg[i:i + null + gran]` for `i in range(0, len(seg) - null, gran)`.  The
Python set is modeled as a first-occurrence deduplicated list. -/
def get_msegs (seg : Seg) (null gran : Nat) : List Seg :=
  dedupF ((rangeStep (seg.length - null) gran).map (fun i => (seg.drop i).take (null + gran)))

/-- Models the `udef_segs` component of `get_udef_segs_def_states` of
ruleset_utils.py: the minimal segments of `seg` (gran 1) absent from the
ruleset. -/
def get_udef_segs (seg : Seg) (rs : Ruleset) (null : Nat) : List Seg :=
  (get_msegs seg null 1).filter (fun w => (rlookup rs w).isNone)

/-- Models the `def_states` component of `get_udef_segs_def_states` of
ruleset_utils.py: the states the ruleset assigns to the defined minimal
segments of `seg`.  Python builds a set of states; the model keeps the list
of values (with multiplicity), which agrees with the set on every use
(membership of F, existence of a non-F state, emptiness). -/
def get_def_states (seg : Seg) (rs : Ruleset) (null : Nat) : List Char :=
  (get_msegs seg null 1).filterMap (fun w => rlookup rs w)

/-- Models `get_udef_segs_def_states` of ruleset_utils.py, lines 27-32. -/
def get_udef_segs_def_states (seg : Seg) (rs : Ruleset) (null : Nat) :
    List Seg × List Char :=
  (get_udef_segs seg rs null, get_def_states seg rs null)

/-- Joins the ruleset images of the windows of `seg` at the given start
indices; `none` as soon as one window is unmapped.  This is the generator
expression inside `sim_seg` of ruleset_utils.py, whose KeyError aborts the
whole join. -/
def lookup_join (rs : Ruleset) (mlen : Nat) (seg : Seg) : List Nat → Option Seg
  | [] => some []
  | i :: rest =>
    match rlookup rs ((seg.drop i).take mlen) with
    | none => none
    | some c =>
      match lookup_join rs mlen seg rest with
      | none => none
      | some cs => some (c :: cs)

/-- One simulation step of `sim_seg`: map every window
`seg[i:i + mseg_len]` for `i in range(len(seg) - mseg_len + 1)` through the
ruleset. -/
def sim1 (rs : Ruleset) (seg : Seg) : Option Seg :=
  lookup_join rs (get_mseg_len rs) seg (List.range (seg.length + 1 - get_mseg_len rs))

/-- Models `sim_seg` of ruleset_utils.py, lines 61-72: simulate `seg` for
`tskip` steps; a KeyError (unmapped window) is caught and surfaces as
`none` (Python sets `seg = None`). -/
def sim_seg (seg : Seg) (rs : Ruleset) : Nat → Option Seg
  | 0 => some seg
  | t + 1 =>
    match sim1 rs seg with
    | none => none
    | some s2 => sim_seg s2 rs t

/-- Models `split_seg` of ruleset_utils.py: the gran-sized chunks
`seg[i:i + gran]` for `i in range(0, len(seg), gran)`. -/
def split_seg (seg : Seg) (gran : Nat) : List Seg :=
  (rangeStep seg.length gran).map (fun i => (seg.drop i).take gran)

/-- Models `exp_seg` of ruleset_utils.py, lines 80-94: exponentiate `seg`
to the given base, right-padding every gran-sized chunk with `base - 1`
copies of the gran-sized F-block when `seg[:gran]` is the F-block, else of
the gran-sized Q-block. -/
def exp_seg (seg : Seg) (base gran : Nat) : Seg :=
  let gF : Seg := List.replicate gran 'F'
  let gQ : Seg := List.replicate gran 'Q'
  let bgX : Seg := (List.replicate (base - 1) (if seg.take gran = gF then gF else gQ)).flatten
  ((split_seg seg gran).map (fun s => s ++ bgX)).flatten

/-- Models `inv_exp_seg` of ruleset_utils.py, lines 97-98: keep the first
gran-sized block of every `gran * base` block. -/
def inv_exp_seg (seg : Seg) (base gran : Nat) : Seg :=
  ((rangeStep seg.length (gran * base)).map (fun i => (seg.drop i).take gran)).flatten

/-- Models the `MsegQueue` class of ruleset_utils.py: a FIFO of minimal
segments together with the set of segments ever enqueued (the set is kept
as a list in first-seen order). -/
structure MsegQueue where
  null : Nat
  gran : Nat
  queued : List Seg
  seen : List Seg
deriving DecidableEq

/-- Models `MsegQueue.enqueue`: append the previously unencountered minimal
segments of `seg` to the queue and record them as seen. -/
def MsegQueue.enqueue (q : MsegQueue) (seg : Seg) : MsegQueue :=
  let new := (get_msegs seg q.null q.gran).filter (fun s => decide (s ∉ q.seen))
  ⟨q.null, q.gran, q.queued ++ new, q.seen ++ new⟩

/-- Models `itertools.product(A, repeat=k)`: all length-`k` tuples over `A`,
first coordinate varying slowest. -/
def tuples (A : List Char) : Nat → List (List Char)
  | 0 => [[]]
  | k + 1 => (A.map (fun a => (tuples A k).map (fun t => a :: t))).flatten

/-- Models `defsim_seg` of find_firing_exp_rulesets.py, lines 47-75.  The
Python function mutates `ruleset` in place in the all-F propagation path
and calls `recurse(new_ruleset)` once per candidate assignment in the
branching path; the model returns the triple of the (possibly updated)
ruleset, the boolean result, and the list of fresh branch rulesets handed
to `recurse`. -/
def defsim_seg (rs : Ruleset) (null : Nat) (nonF_states : List Char) (seg : Seg)
    (nofire : Bool) : Ruleset × Bool × List Ruleset :=
  let udef := get_udef_segs seg rs null
  let defs := get_def_states seg rs null
  if 'F' ∈ defs then
    if nofire || defs.any (fun c => decide (c ≠ 'F')) then (rs, false, [])
    else (rupdate rs (udef.map (fun w => (w, 'F'))), true, [])
  else if udef = [] then (rs, true, [])
  else
    let new_rule_dicts :=
      (if !nofire && defs = [] then [udef.map (fun w => (w, 'F'))] else []) ++
        (tuples nonF_states udef.length).map (fun tup => udef.zip tup)
    (rs, false, new_rule_dicts.map (fun nr => rupdate rs nr))

/-- Models `defsim_end_seg` of find_firing_exp_rulesets.py, lines 77-91,
returning the boolean result together with the mutated ruleset (Python
mutates `ruleset` in place; note that the assignment `ruleset[e] = s` and,
in the failing non-exponential-form path, nothing else, have already
happened when False is returned). -/
def defsim_end_seg (rs : Ruleset) (mseg_len null : Nat) (seg : Seg) (s : Char) :
    Bool × Ruleset :=
  let e := seg.take mseg_len
  if (rlookup rs e).isSome ∧ rlookup rs e ≠ some s then (false, rs)
  else
    let rs1 := rupdate1 rs e s
    let x := if s = 'F' then 'F' else 'Q'
    let udef := get_udef_segs (seg.drop 1) rs1 null
    let defs := get_def_states (seg.drop 1) rs1 null
    if defs.any (fun c => decide (c ≠ x)) then (false, rs1)
    else (true, rupdate rs1 (udef.map (fun w => (w, x))))

/-- Models the `sym` handling of `update_ruleset` in find_rulesets.py,
lines 50-52: `new_rules.update({r[::-1]: new_rules[r] for r in new_rules})`
adds each rule's mirrored orientation with the rule's value. -/
def mirror_rules (nr : List (Seg × Char)) : List (Seg × Char) :=
  rupdate nr (nr.map (fun p => (p.1.reverse, p.2)))

/-- Models the candidate-assignment branching of `defsim_cfg` in
find_rulesets.py, lines 48-62: one fresh ruleset copy per candidate rule
dict (the all-F dict when the fire branch is taken, then one dict per
tuple of the cartesian product), each applied through `update_ruleset`
(which mirrors the rules first when `sym` is set). -/
def cfg_branches (sym : Bool) (rs : Ruleset) (udef_canon : List Seg)
    (nonF_states : List Char) (fire_branch : Bool) : List Ruleset :=
  let rule_dicts :=
    (if fire_branch then [udef_canon.map (fun w => (w, 'F'))] else []) ++
      (tuples nonF_states udef_canon.length).map (fun tup => udef_canon.zip tup)
  rule_dicts.map (fun nr => rupdate rs (if sym then mirror_rules nr else nr))

/-- Models `defsim_cfg` of find_rulesets.py, lines 28-62, for one call:
`numCfgs` is `len(cfgs)`; the result is the returned configuration (Python
returns a configuration or None), the in-place mutated ruleset, and the
branch rulesets handed to the recursive `defsim` calls via
`update_ruleset`. -/
def defsim_cfg_step (cfg : Seg) (numCfgs : Nat) (rs : Ruleset)
    (nonF_states : List Char) (sym opt : Bool) :
    Option Seg × Ruleset × List Ruleset :=
  let seg := cfg ++ cfg.take 2
  let udef := get_udef_segs seg rs 2
  let defs := get_def_states seg rs 2
  if opt && numCfgs == cfg.length then
    if defs.any (fun c => decide (c ≠ 'F')) then (none, rs, [])
    else
      let rs2 := rupdate rs (udef.map (fun w => (w, 'F')))
      (sim_seg seg rs2 1, rs2, [])
  else if 'F' ∈ defs then
    if defs.any (fun c => decide (c ≠ 'F')) || decide (numCfgs < cfg.length) then
      (none, rs, [])
    else
      let rs2 := rupdate rs (udef.map (fun w => (w, 'F')))
      (sim_seg seg rs2 1, rs2, [])
  else if udef = [] then (sim_seg seg rs 1, rs, [])
  else
    let udef2 := if sym then dedupF (udef.map (fun sg => min sg sg.reverse)) else udef
    let fire_branch := defs = [] ∧ cfg.length ≤ numCfgs
    (none, rs, cfg_branches sym rs udef2 nonF_states (decide fire_branch))

/-- Models `find_exp_rulesets_for_seg` of find_firing_exp_rulesets.py,
lines 10-127.  The top-level body only binds locals and defines the inner
function `recurse`; the statements `recurse(init_ruleset)` and
`return found_rulesets` on lines 126-127 are indented into the body of
`recurse` itself, so the top level never calls `recurse` and the function
returns Python's implicit None — modeled as `none` (the docstring instead
promises a list, possibly empty, of rulesets). -/
def find_exp_rulesets_for_seg (_init_seg : Seg) (_init_ruleset : Ruleset)
    (_base : Nat) (_nonQF_states : List Char) : Option (List Ruleset) := none

/-- Reference into the Python heap of dict objects. -/
abbrev Ref := Nat

/-- Heap-and-defaults state for the module find_firing_exp_rulesets.py:
dicts are mutable objects referenced from the heap, and each of the two
entry points owns the one dict object Python created for its
`init_ruleset={}` default when the `def` statement was executed. -/
structure PyState where
  heap : Ref → Ruleset
  findDefaultRef : Ref
  recordDefaultRef : Ref

/-- Overwrite the dict object at `r`. -/
def heapSet (s : PyState) (r : Ref) (rs : Ruleset) : PyState :=
  ⟨fun x => if x = r then rs else s.heap x, s.findDefaultRef, s.recordDefaultRef⟩

/-- Models a call of `find_firing_exp_rulesets_for_rings`
(find_firing_exp_rulesets.py, lines 130-185) up to and including its only
in-place mutation of `init_ruleset`: the body executes eagerly when
called, line 160 runs `init_ruleset[(null + 1) * 'Q'] = 'Q'` on the
caller-supplied dict — or on the shared default dict when the argument is
omitted — and the remaining lines only build the (not yet run) generator.
The result is the updated state together with the reference of the dict
the call used. -/
def find_firing_init_step (null : Nat) (arg : Option Ref) (s : PyState) :
    PyState × Ref :=
  let r := arg.getD s.findDefaultRef
  (heapSet s r (rupdate1 (s.heap r) (List.replicate (null + 1) 'Q') 'Q'), r)

/-- Models a call of `record_firing_exp_rulesets_for_rings`
(find_firing_exp_rulesets.py, lines 188-226) up to and including the
mutations of `init_ruleset`: line 206 runs
`init_ruleset[(null + 1) * 'Q'] = 'Q'` on the caller-supplied dict — or on
this function's own shared default dict when the argument is omitted —
and line 224 then calls `find_firing_exp_rulesets_for_rings` passing that
same dict object explicitly. -/
def record_firing_init_step (null : Nat) (arg : Option Ref) (s : PyState) :
    PyState × Ref :=
  let r := arg.getD s.recordDefaultRef
  let s1 := heapSet s r (rupdate1 (s.heap r) (List.replicate (null + 1) 'Q') 'Q')
  find_firing_init_step null (some r) s1

/-- State of the symbol-renaming machinery of find_exp_from_base_ruleset.py:
the remaining fresh symbols of `rename_states_gen` and the `rename_map`
built so far.  Python raises StopIteration when the pool is exhausted (a
fatal configuration error); the model then yields a placeholder character,
a case no claim exercises. -/
structure RenameState where
  pool : List Char
  rmap : List (Seg × Char)

/-- Rename a single gran-sized chunk, drawing a fresh symbol on first
sight (the body of the loop of `rename_seg`, lines 45-48). -/
def rename_chunk (st : RenameState) (s : Seg) : RenameState × Char :=
  match rlookup st.rmap s with
  | some c => (st, c)
  | none =>
    let c := st.pool.headD '?'
    (⟨st.pool.tail, rupdate1 st.rmap s c⟩, c)

/-- Models `rename_seg` of find_exp_from_base_ruleset.py, lines 43-49. -/
def rename_seg (gran : Nat) (st : RenameState) (seg : Seg) : RenameState × Seg :=
  (split_seg seg gran).foldl
    (fun acc s =>
      let st2c := rename_chunk acc.1 s
      (st2c.1, acc.2 ++ [st2c.2]))
    (st, [])

/-- Models the `for i in range(base)` loop of find_exp_from_base_ruleset.py,
lines 57-61: advance `stride` steps at a time, returning None when the
result is falsy (None from an unmapped window, or an empty string), and
enqueue each intermediate segment. -/
def fefb_sim_loop (base_ruleset : Ruleset) (stride : Nat) :
    Nat → Seg → MsegQueue → Option (Seg × MsegQueue)
  | 0, seg, q => some (seg, q)
  | i + 1, seg, q =>
    match sim_seg seg base_ruleset stride with
    | none => none
    | some [] => none
    | some s2 => fefb_sim_loop base_ruleset stride i s2 (q.enqueue s2)

/-- Models `find_exp_from_base_ruleset` of find_exp_from_base_ruleset.py,
lines 3-66.  The `return exp_ruleset, rename_map` statement on line 66 is
indented into the body of the `while` loop, so the loop body runs at most
once: every path through one iteration returns, and when the initial queue
is empty the function falls off the end and returns Python's implicit
None.  The enqueues of lines 56 and 61 are retained although nothing ever
dequeues their segments. -/
def find_exp_from_base_ruleset (tsegs : List Seg) (base_ruleset : Ruleset)
    (stride gran : Nat) (rename_states : List Char) (base : Nat) :
    Option (List (Seg × Seg) × List (Seg × Char)) :=
  let null := (get_mseg_len base_ruleset - 1) * stride
  let st0 : RenameState :=
    ⟨rename_states, [(List.replicate gran 'Q', 'Q'), (List.replicate gran 'F', 'F')]⟩
  let q0 := tsegs.foldl MsegQueue.enqueue ⟨null, gran, [], []⟩
  match q0.queued with
  | [] => none
  | bgn_seg :: rest =>
    let q1 : MsegQueue := ⟨null, gran, rest, q0.seen⟩
    let seg0 := exp_seg bgn_seg base gran
    let q2 := q1.enqueue seg0
    match fefb_sim_loop base_ruleset stride base seg0 q2 with
    | none => none
    | some (segN, _q3) =>
      match sim_seg bgn_seg base_ruleset stride with
      | none => none
      | some [] => none
      | some end_seg =>
        if segN = exp_seg end_seg base gran then
          let p1 := rename_seg gran st0 bgn_seg
          let p2 := rename_seg gran p1.1 end_seg
          some ([(p1.2, p2.2)], p2.1.rmap)
        else none

theorem rlookup_isSome_iff {β : Type} (m : List (Seg × β)) (k : Seg) :
    (rlookup m k).isSome ↔ k ∈ ukeys m := by
  induction m with
  | nil => simp [rlookup, ukeys]
  | cons p rest ih =>
    obtain ⟨a, b⟩ := p
    by_cases h : k = a
    · subst h
      simp only [rlookup, if_pos rfl, ukeys, List.map_cons, Option.isSome_some]
      exact ⟨fun _ => List.mem_cons_self _ _, fun _ => rfl⟩
    · simp only [rlookup, if_neg h, ukeys, List.map_cons, List.mem_cons]
      rw [show List.map Prod.fst rest = ukeys rest from rfl] at *
      constructor
      · intro hs
        exact Or.inr (ih.mp hs)
      · rintro (h1 | h1)
        · exact absurd h1 h
        · exact ih.mpr h1

theorem mem_of_rlookup {β : Type} (m : List (Seg × β)) (k : Seg) (v : β)
    (h : rlookup m k = some v) : (k, v) ∈ m := by
  induction m with
  | nil => simp [rlookup] at h
  | cons p rest ih =>
    obtain ⟨a, b⟩ := p
    by_cases hk : k = a
    · subst hk
      rw [show rlookup ((k, b) :: rest) k = some b by simp [rlookup]] at h
      injection h with h2
      subst h2
      exact List.mem_cons_self _ _
    · simp only [rlookup, if_neg hk] at h
      exact List.mem_cons_of_mem _ (ih h)

theorem rupdate1_cons_pos {β : Type} (a : Seg) (b : β) (rest : List (Seg × β))
    (k : Seg) (v : β) (h : a = k) :
    rupdate1 ((a, b) :: rest) k v = (k, v) :: rest := by
  simp only [rupdate1, if_pos h]

theorem rupdate1_cons_neg {β : Type} (a : Seg) (b : β) (rest : List (Seg × β))
    (k : Seg) (v : β) (h : ¬a = k) :
    rupdate1 ((a, b) :: rest) k v = (a, b) :: rupdate1 rest k v := by
  simp only [rupdate1, if_neg h]

theorem mem_ukeys_rupdate1 {β : Type} (m : List (Seg × β)) (k : Seg) (v : β) (k' : Seg) :
    k' ∈ ukeys (rupdate1 m k v) ↔ k' ∈ ukeys m ∨ k' = k := by
  induction m with
  | nil => simp [rupdate1, ukeys]
  | cons p rest ih =>
    obtain ⟨a, b⟩ := p
    by_cases h : a = k
    · subst h
      rw [rupdate1_cons_pos a b rest a v rfl]
      simp only [ukeys, List.map_cons, List.mem_cons]
      tauto
    · rw [rupdate1_cons_neg a b rest k v h]
      simp only [ukeys, List.map_cons, List.mem_cons]
      rw [show List.map Prod.fst (rupdate1 rest k v) = ukeys (rupdate1 rest k v) from rfl,
        ih, show List.map Prod.fst rest = ukeys rest from rfl]
      tauto

theorem nodup_ukeys_rupdate1 {β : Type} (m : List (Seg × β)) (k : Seg) (v : β)
    (hn : (ukeys m).Nodup) : (ukeys (rupdate1 m k v)).Nodup := by
  induction m with
  | nil => simp [rupdate1, ukeys]
  | cons p rest ih =>
    obtain ⟨a, b⟩ := p
    simp only [ukeys, List.map_cons, List.nodup_cons] at hn
    by_cases h : a = k
    · subst h
      rw [rupdate1_cons_pos a b rest a v rfl]
      simp only [ukeys, List.map_cons, List.nodup_cons]
      exact hn
    · rw [rupdate1_cons_neg a b rest k v h]
      simp only [ukeys, List.map_cons, List.nodup_cons]
      refine ⟨fun hmem => ?_, ih hn.2⟩
      rcases (mem_ukeys_rupdate1 rest k v a).mp hmem with h1 | h1
      · exact hn.1 h1
      · exact h h1

theorem mem_ukeys_rupdate {β : Type} (l m : List (Seg × β)) (k' : Seg) :
    k' ∈ ukeys (rupdate m l) ↔ k' ∈ ukeys m ∨ k' ∈ ukeys l := by
  induction l generalizing m with
  | nil =>
    constructor
    · intro hmem
      exact Or.inl hmem
    · rintro (hmem | hmem)
      · exact hmem
      · simp only [ukeys, List.map_nil] at hmem
        cases hmem
  | cons p rest ih =>
    obtain ⟨a, b⟩ := p
    have step : rupdate m ((a, b) :: rest) = rupdate (rupdate1 m a b) rest := rfl
    rw [step, ih, mem_ukeys_rupdate1]
    simp only [ukeys, List.map_cons, List.mem_cons]
    tauto

theorem nodup_ukeys_rupdate {β : Type} (l m : List (Seg × β))
    (hn : (ukeys m).Nodup) : (ukeys (rupdate m l)).Nodup := by
  induction l generalizing m with
  | nil => exact hn
  | cons p rest ih =>
    exact ih (rupdate1 m p.1 p.2) (nodup_ukeys_rupdate1 m p.1 p.2 hn)

theorem rlookup_reverse_of_nodup {β : Type} (m : List (Seg × β)) (k : Seg)
    (hn : (ukeys m).Nodup) : rlookup m.reverse k = rlookup m k := by
  cases hx : rlookup m k with
  | some v =>
    exact rlookup_of_nodup_mem m.reverse k v
      (by rw [ukeys_reverse]; exact List.nodup_reverse.mpr hn)
      (List.mem_reverse.mpr (mem_of_rlookup m k v hx))
  | none =>
    apply rlookup_eq_none
    rw [ukeys_reverse, List.mem_reverse]
    intro hmem
    have := (rlookup_isSome_iff m k).mpr hmem
    rw [hx] at this
    cases this

theorem rlookup_rupdate_of_inner {β : Type} (m l : List (Seg × β)) (k : Seg) (v : β)
    (hn : (ukeys l).Nodup) (h : rlookup l k = some v) :
    rlookup (rupdate m l) k = some v := by
  rw [rlookup_rupdate, rlookup_reverse_of_nodup l k hn, h]

theorem rlookup_preserved (rs : Ruleset) (w : Seg) (v : Char)
    (h : rlookup rs w = some v) (nr : List (Seg × Char))
    (hk : ∀ k ∈ ukeys nr, rlookup rs k = none) :
    rlookup (rupdate rs nr) w = some v := by
  rw [rlookup_rupdate_of_not_mem]
  · exact h
  · intro hmem
    have := hk w hmem
    rw [h] at this
    cases this

theorem tuples_length (A : List Char) (k : Nat) :
    (tuples A k).length = A.length ^ k := by
  induction k with
  | zero => simp [tuples]
  | succ k ih =>
    simp only [tuples, List.length_flatten, List.map_map]
    have hmap : A.map (List.length ∘ fun a => (tuples A k).map (fun t => a :: t))
        = A.map (fun _ => A.length ^ k) := by
      apply List.map_congr_left
      intro a _
      simp [ih]
    have hsum : ∀ (L : List Char) (c : Nat), (L.map (fun _ => c)).sum = L.length * c := by
      intro L c
      induction L with
      | nil => simp
      | cons x t ih =>
        simp only [List.map_cons, List.sum_cons, List.length_cons, ih]
        ring
    rw [hmap, hsum, pow_succ, mul_comm]

theorem tuples_mem_length (A : List Char) (k : Nat) (t : List Char)
    (h : t ∈ tuples A k) : t.length = k := by
  induction k generalizing t with
  | zero =>
    simp only [tuples, List.mem_singleton] at h
    subst h
    rfl
  | succ k ih =>
    simp only [tuples, List.mem_flatten, List.mem_map] at h
    obtain ⟨l, ⟨a, _, rfl⟩, ht⟩ := h
    obtain ⟨t', ht', rfl⟩ := List.mem_map.mp ht
    simp [ih t' ht']

theorem ukeys_map_mk (l : List Seg) (x : Char) :
    ukeys (l.map (fun w => (w, x))) = l := by
  induction l with
  | nil => rfl
  | cons s t ih => simpa [ukeys] using ih

theorem ukeys_zip (l : List Seg) (tup : List Char) (h : l.length ≤ tup.length) :
    ukeys (l.zip tup) = l := List.map_fst_zip l tup h

theorem mem_get_udef_segs (seg : Seg) (rs : Ruleset) (null : Nat) (w : Seg) :
    w ∈ get_udef_segs seg rs null ↔
      w ∈ get_msegs seg null 1 ∧ rlookup rs w = none := by
  simp [get_udef_segs, List.mem_filter, Option.isNone_iff_eq_none]

theorem mem_get_def_states (seg : Seg) (rs : Ruleset) (null : Nat) (c : Char) :
    c ∈ get_def_states seg rs null ↔
      ∃ w ∈ get_msegs seg null 1, rlookup rs w = some c := by
  simp [get_def_states, List.mem_filterMap]

theorem nodup_get_msegs (seg : Seg) (null gran : Nat) :
    (get_msegs seg null gran).Nodup := nodup_dedupF _

theorem nodup_get_udef_segs (seg : Seg) (rs : Ruleset) (null : Nat) :
    (get_udef_segs seg rs null).Nodup :=
  List.Nodup.filter _ (nodup_get_msegs seg null 1)

theorem rule_dicts_shape (udef : List Seg) (hnd : udef.Nodup) (nonF_states : List Char)
    (fire_list : List (List (Seg × Char)))
    (hfl : fire_list = [] ∨ fire_list = [udef.map (fun w => (w, 'F'))]) :
    ∀ nr ∈ fire_list ++ (tuples nonF_states udef.length).map (fun tup => udef.zip tup),
      ukeys nr = udef ∧ (ukeys nr).Nodup := by
  intro nr hnr
  rcases List.mem_append.mp hnr with hfire | htup
  · have : nr = udef.map (fun w => (w, 'F')) := by
      rcases hfl with rfl | rfl
      · simp at hfire
      · simpa using hfire
    subst this
    rw [ukeys_map_mk]
    exact ⟨rfl, hnd⟩
  · obtain ⟨tup, htup2, rfl⟩ := List.mem_map.mp htup
    have hkeys : ukeys (udef.zip tup) = udef :=
      ukeys_zip _ _ (by rw [tuples_mem_length nonF_states _ tup htup2])
    rw [hkeys]
    exact ⟨rfl, hnd⟩

theorem defsim_seg_branches_shape (rs : Ruleset) (null : Nat) (nonF_states : List Char)
    (seg : Seg) (nofire : Bool) :
    ∀ b ∈ (defsim_seg rs null nonF_states seg nofire).2.2,
      ∃ nr : List (Seg × Char),
        ukeys nr = get_udef_segs seg rs null ∧ (ukeys nr).Nodup ∧ b = rupdate rs nr := by
  intro b hb
  simp only [defsim_seg] at hb
  by_cases h1 : 'F' ∈ get_def_states seg rs null
  · rw [if_pos h1] at hb
    by_cases h2 : (nofire || (get_def_states seg rs null).any fun c => decide (c ≠ 'F')) = true
    · rw [if_pos h2] at hb
      simp at hb
    · rw [if_neg h2] at hb
      simp at hb
  · rw [if_neg h1] at hb
    by_cases h3 : get_udef_segs seg rs null = []
    · rw [if_pos h3] at hb
      simp at hb
    · rw [if_neg h3] at hb
      simp only [List.mem_map] at hb
      obtain ⟨nr, hnr, rfl⟩ := hb
      have hshape := rule_dicts_shape (get_udef_segs seg rs null)
        (nodup_get_udef_segs seg rs null) nonF_states _
        (by
          by_cases hc : (!nofire && decide (get_def_states seg rs null = [])) = true
          · rw [if_pos hc]; exact Or.inr rfl
          · rw [if_neg hc]; exact Or.inl rfl)
        nr hnr
      exact ⟨nr, hshape.1, hshape.2, rfl⟩

theorem cfg_branches_shape (sym : Bool) (rs : Ruleset) (U : List Seg) (hU : U.Nodup)
    (nonF_states : List Char) (fb : Bool) :
    ∀ b ∈ cfg_branches sym rs U nonF_states fb,
      ∃ nr : List (Seg × Char),
        ukeys nr = U ∧ (ukeys nr).Nodup ∧
        b = rupdate rs (if sym then mirror_rules nr else nr) := by
  intro b hb
  simp only [cfg_branches, List.mem_map] at hb
  obtain ⟨nr, hnr, rfl⟩ := hb
  have hshape := rule_dicts_shape U hU nonF_states _
    (by
      by_cases hc : fb = true
      · rw [if_pos hc]; exact Or.inr rfl
      · rw [if_neg hc]; exact Or.inl rfl)
    nr hnr
  exact ⟨nr, hshape.1, hshape.2, rfl⟩

theorem split_seg_nil (gran : Nat) : split_seg [] gran = [] := by
  simp [split_seg, rangeStep_zero]

theorem split_seg_cons (gran : Nat) (hg : 1 ≤ gran) (c rest : Seg) (hc : c.length = gran) :
    split_seg (c ++ rest) gran = c :: split_seg rest gran := by
  unfold split_seg
  rw [List.length_append, hc, rangeStep_add gran rest.length hg, List.map_cons, List.map_map]
  congr 1
  · show ((c ++ rest).drop 0).take gran = c
    rw [List.drop_zero,
      show (c ++ rest).take gran = c by rw [← hc]; exact List.take_left c rest]
  · apply List.map_congr_left
    intro i _
    show ((c ++ rest).drop (i + gran)).take gran = (rest.drop i).take gran
    rw [Nat.add_comm i gran, ← List.drop_drop,
      show (c ++ rest).drop gran = rest by rw [← hc]; exact List.drop_left c rest]

theorem split_seg_chunks (gran : Nat) (hg : 1 ≤ gran) :
    ∀ (k : Nat) (seg : Seg), seg.length = gran * k →
      (∀ c ∈ split_seg seg gran, c.length = gran) ∧
      (split_seg seg gran).flatten = seg ∧
      (split_seg seg gran).length = k := by
  intro k
  induction k with
  | zero =>
    intro seg hlen
    have hnil : seg = [] := List.eq_nil_of_length_eq_zero (by omega)
    subst hnil
    simp [split_seg_nil]
  | succ k ih =>
    intro seg hlen
    have hge : gran ≤ seg.length := by
      rw [hlen, Nat.mul_succ]
      omega
    have htk : (seg.take gran).length = gran := by
      rw [List.length_take]
      exact Nat.min_eq_left hge
    have hsplit : split_seg seg gran = seg.take gran :: split_seg (seg.drop gran) gran := by
      have h2 := split_seg_cons gran hg (seg.take gran) (seg.drop gran) htk
      rwa [List.take_append_drop] at h2
    have hdlen : (seg.drop gran).length = gran * k := by
      rw [List.length_drop, hlen, Nat.mul_succ]
      omega
    obtain ⟨ih1, ih2, ih3⟩ := ih (seg.drop gran) hdlen
    refine ⟨?_, ?_, ?_⟩
    · intro c hc
      rw [hsplit] at hc
      rcases List.mem_cons.mp hc with rfl | hc2
      · exact htk
      · exact ih1 c hc2
    · rw [hsplit, List.flatten_cons, ih2, List.take_append_drop]
    · rw [hsplit, List.length_cons, ih3]

theorem inv_exp_cons (base gran : Nat) (hb : 1 ≤ base) (hg : 1 ≤ gran) (x y : Seg)
    (hx : x.length = gran * base) :
    inv_exp_seg (x ++ y) base gran = x.take gran ++ inv_exp_seg y base gran := by
  have hgb : 1 ≤ gran * base := by
    calc 1 = 1 * 1 := by ring
    _ ≤ gran * base := Nat.mul_le_mul hg hb
  have hgx : gran ≤ x.length := by
    rw [hx]
    calc gran = gran * 1 := by ring
    _ ≤ gran * base := Nat.mul_le_mul_left gran hb
  unfold inv_exp_seg
  rw [List.length_append, hx, rangeStep_add (gran * base) y.length hgb, List.map_cons,
    List.flatten_cons, List.map_map]
  congr 1
  · show ((x ++ y).drop 0).take gran = x.take gran
    rw [List.drop_zero, List.take_append_of_le_length hgx]
  · congr 1
    apply List.map_congr_left
    intro i _
    show ((x ++ y).drop (i + gran * base)).take gran = (y.drop i).take gran
    rw [Nat.add_comm i (gran * base), ← List.drop_drop,
      show (x ++ y).drop (gran * base) = y by rw [← hx]; exact List.drop_left x y]

theorem inv_exp_flatten (base gran : Nat) (hb : 1 ≤ base) (hg : 1 ≤ gran) (pad : Seg)
    (hpad : pad.length = (base - 1) * gran) :
    ∀ cs : List Seg, (∀ c ∈ cs, c.length = gran) →
      inv_exp_seg ((cs.map (fun c => c ++ pad)).flatten) base gran = cs.flatten := by
  intro cs
  induction cs with
  | nil =>
    intro _
    simp [inv_exp_seg, rangeStep_zero]
  | cons c rest ih =>
    intro hall
    have hclen : c.length = gran := hall c (List.mem_cons_self c rest)
    have hxlen : (c ++ pad).length = gran * base := by
      rw [List.length_append, hclen, hpad]
      cases base with
      | zero => omega
      | succ b =>
        rw [Nat.succ_sub_one]
        ring
    rw [List.map_cons, List.flatten_cons,
      inv_exp_cons base gran hb hg (c ++ pad) _ hxlen,
      show (c ++ pad).take gran = c by
        rw [List.take_append_of_le_length (le_of_eq hclen.symm), ← hclen, List.take_length],
      ih (fun c2 hc2 => hall c2 (List.mem_cons_of_mem _ hc2)), List.flatten_cons]

/-- C5: Exponentiation round-trip — for every window whose length is a
positive multiple of `gran` and every `base ≥ 1`, `gran ≥ 1`,
`inv_exp_seg (exp_seg w base gran) base gran = w` (contract is a left
inverse of exponentiate). -/
theorem exp_round_trip (w : Seg) (base gran : Nat) (hb : 1 ≤ base) (hg : 1 ≤ gran)
    (_hpos : 0 < w.length) (hdvd : gran ∣ w.length) :
    inv_exp_seg (exp_seg w base gran) base gran = w := by
  obtain ⟨k, hk⟩ := hdvd
  obtain ⟨hc1, hc2, _⟩ := split_seg_chunks gran hg k w hk
  have hblk : (if w.take gran = List.replicate gran 'F' then List.replicate gran 'F'
      else List.replicate gran 'Q').length = gran := by
    split <;> simp
  have hpadlen :
      ((List.replicate (base - 1)
        (if w.take gran = List.replicate gran 'F' then List.replicate gran 'F'
         else List.replicate gran 'Q')).flatten).length = (base - 1) * gran := by
    rw [List.length_flatten, List.map_replicate, hblk, List.sum_replicate, smul_eq_mul]
  have hmain := inv_exp_flatten base gran hb hg _ hpadlen (split_seg w gran) hc1
  rw [hc2] at hmain
  exact hmain

/-- C5 witness at the docstring example RSTU, base 2, gran 2. -/
theorem exp_round_trip_witness :
    inv_exp_seg (exp_seg ['R','S','T','U'] 2 2) 2 2 = ['R','S','T','U'] :=
  exp_round_trip ['R','S','T','U'] 2 2 (by decide) (by decide) (by decide) (by decide)

/-- C6 counterexample: the docstring example RST, base 2, gran 1 expands to
RQSQTQ of width 6, not to width `w + (base - 1) * gran = 4` as the claim
states. -/
theorem exp_seg_width_counterexample :
    (exp_seg ['R','S','T'] 2 1).length ≠ ['R','S','T'].length + (2 - 1) * 1 := by decide

/-- C6 amended: a non-firing window of width `w` (a multiple of `gran`)
exponentiates by right-padding each gran-sized chunk with `base - 1` copies
of the Q-block, producing width `base * w` (not `w + (base - 1) * gran`). -/
theorem exp_seg_width (w : Seg) (base gran : Nat) (hb : 1 ≤ base) (hg : 1 ≤ gran)
    (hdvd : gran ∣ w.length) (hnf : w.take gran ≠ List.replicate gran 'F') :
    exp_seg w base gran
        = ((split_seg w gran).map
            (fun s => s ++ (List.replicate (base - 1) (List.replicate gran 'Q')).flatten)).flatten
      ∧ (exp_seg w base gran).length = base * w.length := by
  obtain ⟨k, hk⟩ := hdvd
  obtain ⟨hc1, _, hc3⟩ := split_seg_chunks gran hg k w hk
  have hdef : exp_seg w base gran
      = ((split_seg w gran).map
          (fun s => s ++ (List.replicate (base - 1) (List.replicate gran 'Q')).flatten)).flatten := by
    simp only [exp_seg]
    rw [if_neg hnf]
  refine ⟨hdef, ?_⟩
  rw [hdef, List.length_flatten, List.map_map]
  have hlen : ∀ c ∈ split_seg w gran,
      (List.length ∘ fun s =>
        s ++ (List.replicate (base - 1) (List.replicate gran 'Q')).flatten) c
        = base * gran := by
    intro c hc
    show (c ++ (List.replicate (base - 1) (List.replicate gran 'Q')).flatten).length
        = base * gran
    rw [List.length_append, hc1 c hc, List.length_flatten, List.map_replicate,
      List.length_replicate, List.sum_replicate, smul_eq_mul]
    cases base with
    | zero => omega
    | succ b =>
      rw [Nat.succ_sub_one]
      ring
  rw [List.map_congr_left hlen]
  have hsum : ∀ (L : List Seg) (c : Nat), (L.map (fun _ => c)).sum = L.length * c := by
    intro L c
    induction L with
    | nil => simp
    | cons x t iht =>
      simp only [List.map_cons, List.sum_cons, List.length_cons, iht]
      ring
  rw [hsum, hc3, hk]
  ring

/-- C6 amended witness at the counterexample input. -/
theorem exp_seg_width_witness :
    (exp_seg ['R','S','T'] 2 1).length = 2 * ['R','S','T'].length :=
  (exp_seg_width ['R','S','T'] 2 1 (by decide) (by decide) (by decide) (by decide)).2

theorem lookup_join_eq_none (rs : Ruleset) (mlen : Nat) (seg : Seg) (l : List Nat) :
    lookup_join rs mlen seg l = none ↔
      ∃ i ∈ l, rlookup rs ((seg.drop i).take mlen) = none := by
  induction l with
  | nil => simp [lookup_join]
  | cons i rest ih =>
    cases h1 : rlookup rs ((seg.drop i).take mlen) with
    | none =>
      simp only [lookup_join, h1]
      exact ⟨fun _ => ⟨i, List.mem_cons_self i rest, h1⟩, fun _ => trivial⟩
    | some c =>
      cases h2 : lookup_join rs mlen seg rest with
      | none =>
        simp only [lookup_join, h1, h2]
        constructor
        · intro _
          obtain ⟨j, hj, hnone⟩ := ih.mp h2
          exact ⟨j, List.mem_cons_of_mem i hj, hnone⟩
        · intro _
          trivial
      | some cs =>
        simp only [lookup_join, h1, h2]
        constructor
        · intro hx
          exact Option.noConfusion hx
        · rintro ⟨j, hj, hnone⟩
          rcases List.mem_cons.mp hj with rfl | hj2
          · rw [h1] at hnone
            exact Option.noConfusion hnone
          · have hrest := ih.mpr ⟨j, hj2, hnone⟩
            rw [h2] at hrest
            exact Option.noConfusion hrest

theorem sim1_eq_none (rs : Ruleset) (seg : Seg) :
    sim1 rs seg = none ↔
      ∃ i, i + get_mseg_len rs ≤ seg.length ∧
        rlookup rs ((seg.drop i).take (get_mseg_len rs)) = none := by
  rw [sim1, lookup_join_eq_none]
  constructor
  · rintro ⟨i, hi, hnone⟩
    rw [List.mem_range] at hi
    exact ⟨i, by omega, hnone⟩
  · rintro ⟨i, hi, hnone⟩
    exact ⟨i, List.mem_range.mpr (by omega), hnone⟩

theorem sim_seg_step (rs : Ruleset) (seg s2 : Seg) (n : Nat) (h : sim1 rs seg = some s2) :
    sim_seg seg rs (n + 1) = sim_seg s2 rs n := by
  simp [sim_seg, h]

/-- C9: `sim_seg` returns `none` exactly when, at some step `t < tskip` of
the simulation, some window of the segment reached after `t` steps is
absent from the ruleset; otherwise it returns the fully simulated
segment (the KeyError is caught inside `sim_seg`, so no exception reaches
the caller). -/
theorem sim_seg_none_iff (seg : Seg) (rs : Ruleset) (tskip : Nat) (_hne : rs ≠ []) :
    sim_seg seg rs tskip = none ↔
      ∃ t, t < tskip ∧ ∃ s, sim_seg seg rs t = some s ∧
        ∃ i, i + get_mseg_len rs ≤ s.length ∧
          rlookup rs ((s.drop i).take (get_mseg_len rs)) = none := by
  induction tskip generalizing seg with
  | zero =>
    constructor
    · intro h
      exact Option.noConfusion h
    · rintro ⟨t, ht, _⟩
      omega
  | succ t ih =>
    cases hs : sim1 rs seg with
    | none =>
      simp only [sim_seg, hs]
      constructor
      · intro _
        exact ⟨0, by omega, seg, rfl, (sim1_eq_none rs seg).mp hs⟩
      · intro _
        trivial
    | some s2 =>
      rw [sim_seg_step rs seg s2 t hs, ih s2]
      constructor
      · rintro ⟨t2, ht2, s, hsim, hwin⟩
        exact ⟨t2 + 1, by omega, s,
          by rw [sim_seg_step rs seg s2 t2 hs]; exact hsim, hwin⟩
      · rintro ⟨t2, ht2, s, hsim, hwin⟩
        cases t2 with
        | zero =>
          rw [show sim_seg seg rs 0 = some seg from rfl] at hsim
          injection hsim with hseg
          subst hseg
          exfalso
          have hn := (sim1_eq_none rs seg).mpr hwin
          rw [hs] at hn
          exact Option.noConfusion hn
        | succ t3 =>
          rw [sim_seg_step rs seg s2 t3 hs] at hsim
          exact ⟨t3, by omega, s, hsim, hwin⟩

/-- C9 witness: a ruleset with the single window QQ cannot simulate QR. -/
theorem sim_seg_none_iff_witness :
    sim_seg ['Q','R'] [(['Q','Q'], 'Q')] 1 = none :=
  (sim_seg_none_iff ['Q','R'] [(['Q','Q'], 'Q')] 1 (by decide)).mpr
    ⟨0, by decide, ['Q','R'], rfl, 0, by decide, by decide⟩

/-- C3 (code bug): `find_exp_rulesets_for_seg` returns None on every input
because its top level never calls `recurse` — the statements of lines
126-127 sit inside `recurse`'s own body — although its docstring promises
a list of rulesets and its caller iterates over the result. -/
theorem find_exp_rulesets_for_seg_returns_none (init_seg : Seg) (init_ruleset : Ruleset)
    (base : Nat) (nonQF_states : List Char) :
    find_exp_rulesets_for_seg init_seg init_ruleset base nonQF_states = none := rfl

/-- C2 (code bug): with base ruleset {RR:R, RQ:R, QR:Q}, seed RR, stride 1,
gran 1, base 2, the function returns an aggregate table and rename map
after verifying only the first dequeued segment RR, although the window RQ
of the exponentiated segment RQRQ — which line 56 enqueues — fails to
simulate under the base ruleset (QQ is unmapped), so by the claim the
whole closure check must return None. -/
theorem find_exp_from_base_early_return :
    find_exp_from_base_ruleset [['R','R']]
        [(['R','R'], 'R'), (['R','Q'], 'R'), (['Q','R'], 'Q')] 1 1 ['A'] 2
      = some ([(['A','A'], ['A'])], [(['Q'], 'Q'), (['F'], 'F'), (['R'], 'A')]) ∧
    ['R','Q'] ∈ get_msegs (exp_seg ['R','R'] 2 1) 1 1 ∧
    sim_seg (exp_seg ['R','Q'] 2 1)
        [(['R','R'], 'R'), (['R','Q'], 'R'), (['Q','R'], 'Q')] 1 = none := by
  refine ⟨?_, ?_, ?_⟩
  · rfl
  · decide
  · rfl

/-- C10: both entry points insert the all-Q rule into the very dict object
the caller supplied (or into the one shared default dict created when the
`def` statement ran, when the argument is omitted), so the rule inserted
during one argument-omitting call is already present in the dict a later
argument-omitting call operates on. -/
theorem init_ruleset_default_sharing (null : Nat) (s0 : PyState) (r : Ref) :
    (rlookup ((find_firing_init_step null (some r) s0).1.heap r)
        (List.replicate (null + 1) 'Q') = some 'Q' ∧
      rlookup ((record_firing_init_step null (some r) s0).1.heap r)
        (List.replicate (null + 1) 'Q') = some 'Q') ∧
    ((find_firing_init_step null none s0).2 = s0.findDefaultRef ∧
      (find_firing_init_step null none s0).1.findDefaultRef = s0.findDefaultRef ∧
      (find_firing_init_step null none ((find_firing_init_step null none s0).1)).2
        = s0.findDefaultRef ∧
      rlookup ((find_firing_init_step null none s0).1.heap s0.findDefaultRef)
        (List.replicate (null + 1) 'Q') = some 'Q') ∧
    ((record_firing_init_step null none s0).2 = s0.recordDefaultRef ∧
      (record_firing_init_step null none s0).1.recordDefaultRef = s0.recordDefaultRef ∧
      rlookup ((record_firing_init_step null none s0).1.heap s0.recordDefaultRef)
        (List.replicate (null + 1) 'Q') = some 'Q') := by
  refine ⟨⟨?_, ?_⟩, ⟨rfl, rfl, rfl, ?_⟩, ⟨rfl, rfl, ?_⟩⟩ <;>
    simp [find_firing_init_step, record_firing_init_step, heapSet,
      rlookup_rupdate1_self]

/-- C1: the Misfire Invariant of `defsim_seg` — if some defined window maps
to F while another defined window maps to a non-F state, or `nofire` is set
while some defined window maps to F, the step returns failure without
defining anything and spawns no branch; if the set of defined windows is
non-empty, all of them map to F, and firing is permitted, the step assigns
F to every remaining undefined window (so every window of the segment maps
to F afterwards, everything else being untouched) and succeeds. -/
theorem misfire_invariant_defsim_seg (rs : Ruleset) (null : Nat) (nonF_states : List Char)
    (seg : Seg) (nofire : Bool) :
    (('F' ∈ get_def_states seg rs null ∧
        (nofire = true ∨ ∃ c ∈ get_def_states seg rs null, c ≠ 'F')) →
      defsim_seg rs null nonF_states seg nofire = (rs, false, [])) ∧
    ((get_def_states seg rs null ≠ [] ∧ (∀ c ∈ get_def_states seg rs null, c = 'F') ∧
        nofire = false) →
      ((defsim_seg rs null nonF_states seg nofire).2.1 = true ∧
        (∀ w ∈ get_msegs seg null 1,
          rlookup (defsim_seg rs null nonF_states seg nofire).1 w = some 'F') ∧
        (∀ k, k ∉ get_udef_segs seg rs null →
          rlookup (defsim_seg rs null nonF_states seg nofire).1 k = rlookup rs k) ∧
        (defsim_seg rs null nonF_states seg nofire).2.2 = [])) := by
  constructor
  · rintro ⟨hF, hbad⟩
    have hcond : (nofire || (get_def_states seg rs null).any fun c => decide (c ≠ 'F'))
        = true := by
      rcases hbad with rfl | ⟨c, hc, hcne⟩
      · simp
      · simp only [Bool.or_eq_true, List.any_eq_true]
        exact Or.inr ⟨c, hc, by simpa using hcne⟩
    simp only [defsim_seg, if_pos hF, if_pos hcond]
  · rintro ⟨hne, hall, hnf⟩
    subst hnf
    have hF : 'F' ∈ get_def_states seg rs null := by
      obtain ⟨c, hc⟩ := List.exists_mem_of_ne_nil _ hne
      have hcF := hall c hc
      subst hcF
      exact hc
    have hcondfalse :
        ¬((false || (get_def_states seg rs null).any fun c => decide (c ≠ 'F')) = true) := by
      simp only [Bool.false_or, List.any_eq_true, not_exists]
      intro c
      rintro ⟨hc, hcd⟩
      exact absurd (hall c hc) (by simpa using hcd)
    have heq : defsim_seg rs null nonF_states seg false
        = (rupdate rs ((get_udef_segs seg rs null).map (fun w => (w, 'F'))), true, []) := by
      simp only [defsim_seg, if_pos hF, if_neg hcondfalse]
    rw [heq]
    refine ⟨rfl, ?_, ?_, rfl⟩
    · intro w hw
      by_cases hwdef : rlookup rs w = none
      · have hwud : w ∈ get_udef_segs seg rs null :=
          (mem_get_udef_segs seg rs null w).mpr ⟨hw, hwdef⟩
        apply rlookup_rupdate_of_mem
        · rw [ukeys_map_mk]
          exact nodup_get_udef_segs seg rs null
        · exact List.mem_map_of_mem _ hwud
      · obtain ⟨c, hc⟩ := Option.ne_none_iff_exists'.mp hwdef
        have hcdef : c ∈ get_def_states seg rs null :=
          (mem_get_def_states seg rs null c).mpr ⟨w, hw, hc⟩
        have hcF := hall c hcdef
        subst hcF
        rw [rlookup_rupdate_of_not_mem rs _ w ?hnm]
        · exact hc
        case hnm =>
          rw [ukeys_map_mk]
          intro hmem
          obtain ⟨_, hnone⟩ := (mem_get_udef_segs seg rs null w).mp hmem
          rw [hnone] at hc
          exact Option.noConfusion hc
    · intro k hk
      exact rlookup_rupdate_of_not_mem rs _ k (by rw [ukeys_map_mk]; exact hk)

/-- C1 witness: a contradiction instance (QF defined to F, FQ defined to Q)
and a propagation instance (QF defined to F, FQ undefined, gets F). -/
theorem misfire_invariant_defsim_seg_witness :
    defsim_seg [(['Q','F'], 'F'), (['F','Q'], 'Q')] 1 ['R'] ['Q','F','Q'] false
        = ([(['Q','F'], 'F'), (['F','Q'], 'Q')], false, []) ∧
      rlookup (defsim_seg [(['Q','F'], 'F')] 1 ['R'] ['Q','F','Q'] false).1 ['F','Q']
        = some 'F' := by
  constructor
  · exact (misfire_invariant_defsim_seg [(['Q','F'], 'F'), (['F','Q'], 'Q')] 1 ['R']
      ['Q','F','Q'] false).1 ⟨by decide, Or.inr ⟨'Q', by decide, by decide⟩⟩
  · exact ((misfire_invariant_defsim_seg [(['Q','F'], 'F')] 1 ['R'] ['Q','F','Q']
      false).2 ⟨by decide, by decide, rfl⟩).2.1 ['F','Q'] (by decide)

/-- C7: with k ≥ 1 undefined windows, no defined windows and firing
permitted, `defsim_seg` spawns exactly `1 + |nonF_states| ^ k` branches —
the all-F branch plus one per tuple of the cartesian product — each a
fresh copy of the ruleset extended on exactly the undefined windows, and
the parent's ruleset is returned unchanged. -/
theorem branch_enumeration (rs : Ruleset) (null : Nat) (nonF_states : List Char) (seg : Seg)
    (hudef : get_udef_segs seg rs null ≠ [])
    (hdefs : get_def_states seg rs null = []) :
    (defsim_seg rs null nonF_states seg false).1 = rs ∧
    (defsim_seg rs null nonF_states seg false).2.1 = false ∧
    (defsim_seg rs null nonF_states seg false).2.2.length
        = 1 + nonF_states.length ^ (get_udef_segs seg rs null).length ∧
    ∀ b ∈ (defsim_seg rs null nonF_states seg false).2.2,
      ∃ nr : List (Seg × Char),
        ukeys nr = get_udef_segs seg rs null ∧ b = rupdate rs nr := by
  have hnF : 'F' ∉ get_def_states seg rs null := by
    rw [hdefs]
    simp
  have hfb : (!false && decide (get_def_states seg rs null = [])) = true := by
    simp [hdefs]
  have heq : defsim_seg rs null nonF_states seg false
      = (rs, false,
          ((((get_udef_segs seg rs null).map (fun w => (w, 'F'))) ::
            (tuples nonF_states (get_udef_segs seg rs null).length).map
              (fun tup => (get_udef_segs seg rs null).zip tup)).map
            (fun nr => rupdate rs nr))) := by
    simp only [defsim_seg, if_neg hnF, if_neg hudef, if_pos hfb, List.singleton_append]
  rw [heq]
  refine ⟨rfl, rfl, ?_, ?_⟩
  · simp only [List.length_map, List.length_cons, tuples_length]
    omega
  · intro b hb
    simp only [List.mem_map, List.mem_cons] at hb
    obtain ⟨nr, hnr, rfl⟩ := hb
    rcases hnr with rfl | ⟨tup, htup2, rfl⟩
    · exact ⟨_, ukeys_map_mk _ _, rfl⟩
    · exact ⟨_, ukeys_zip _ _ (by rw [tuples_mem_length nonF_states _ tup htup2]), rfl⟩

/-- C7 witness: the empty ruleset on segment GQG (windows GQ and QG
undefined) with nonF alphabet {R, Q} spawns 1 + 2² = 5 branches and leaves
the parent ruleset empty. -/
theorem branch_enumeration_witness :
    (defsim_seg [] 1 ['R','Q'] ['G','Q','G'] false).1 = ([] : Ruleset) ∧
    (defsim_seg [] 1 ['R','Q'] ['G','Q','G'] false).2.2.length = 5 := by
  have h := branch_enumeration [] 1 ['R','Q'] ['G','Q','G'] (by decide) (by decide)
  refine ⟨h.1, ?_⟩
  rw [h.2.2.1]
  decide

theorem ukeys_map_rev {β : Type} (nr : List (Seg × β)) :
    ukeys (nr.map (fun p => (p.1.reverse, p.2))) = (ukeys nr).map List.reverse := by
  induction nr with
  | nil => rfl
  | cons p t ih => simp [ukeys]

theorem qseg_not_mem_udef (seg : Seg) (rs : Ruleset) (null L : Nat)
    (h : rlookup rs (List.replicate L 'Q') = some 'Q') :
    List.replicate L 'Q' ∉ get_udef_segs seg rs null := by
  intro hmem
  obtain ⟨_, hnone⟩ := (mem_get_udef_segs seg rs null _).mp hmem
  rw [hnone] at h
  exact Option.noConfusion h

theorem qseg_eq_of_min (w : Seg) (L : Nat)
    (h : min w w.reverse = List.replicate L 'Q') : w = List.replicate L 'Q' := by
  rcases min_choice w w.reverse with hm | hm
  · rw [hm] at h
    exact h
  · rw [hm] at h
    have h2 := congrArg List.reverse h
    rwa [List.reverse_reverse, List.reverse_replicate] at h2

theorem qseg_not_mem_canon (udef : List Seg) (L : Nat)
    (hq : List.replicate L 'Q' ∉ udef) :
    List.replicate L 'Q' ∉ dedupF (udef.map (fun sg => min sg sg.reverse)) := by
  intro hmem
  rw [mem_dedupF] at hmem
  obtain ⟨w, hw, hmin⟩ := List.mem_map.mp hmem
  have hwq := qseg_eq_of_min w L hmin
  rw [hwq] at hw
  exact hq hw

theorem rupdate1_qseg (rs : Ruleset) (L : Nat)
    (h : rlookup rs (List.replicate L 'Q') = some 'Q') (e : Seg) (s : Char)
    (hcond : ¬((rlookup rs e).isSome ∧ rlookup rs e ≠ some s)) :
    rlookup (rupdate1 rs e s) (List.replicate L 'Q') = some 'Q' := by
  by_cases he : e = List.replicate L 'Q'
  · subst he
    push_neg at hcond
    have hs := hcond (by rw [h]; rfl)
    rw [h] at hs
    injection hs with hs2
    rw [rlookup_rupdate1_self, ← hs2]
  · rw [rlookup_rupdate1_ne rs e s _ (fun hq => he hq.symm)]
    exact h

theorem rlookup_branch_qseg (rs : Ruleset) (U : List Seg) (hU : U.Nodup)
    (nonF_states : List Char) (fb sym : Bool) (L : Nat)
    (h : rlookup rs (List.replicate L 'Q') = some 'Q')
    (hUq : List.replicate L 'Q' ∉ U) :
    ∀ b ∈ cfg_branches sym rs U nonF_states fb,
      rlookup b (List.replicate L 'Q') = some 'Q' := by
  intro b hb
  obtain ⟨nr, hkeys, _, rfl⟩ := cfg_branches_shape sym rs U hU nonF_states fb b hb
  cases sym with
  | false =>
    rw [if_neg Bool.false_ne_true]
    rw [rlookup_rupdate_of_not_mem rs nr _ (by rw [hkeys]; exact hUq)]
    exact h
  | true =>
    rw [if_pos rfl]
    rw [rlookup_rupdate_of_not_mem rs (mirror_rules nr) _ ?hnm]
    · exact h
    case hnm =>
      intro hmem
      rcases (mem_ukeys_rupdate (nr.map (fun p => (p.1.reverse, p.2))) nr _).mp hmem
        with hm | hm
      · rw [hkeys] at hm
        exact hUq hm
      · rw [ukeys_map_rev, hkeys] at hm
        obtain ⟨c, hcmem, hcrev⟩ := List.mem_map.mp hm
        have hcq : c = List.replicate L 'Q' := by
          have h2 := congrArg List.reverse hcrev
          rwa [List.reverse_reverse, List.reverse_replicate] at h2
        rw [hcq] at hcmem
        exact hUq hcmem

/-- C4: quiescence preservation — assuming the ruleset maps the all-Q
window to Q (as established by line 160 / line 206 of
find_firing_exp_rulesets.py, the last component below), every operation of
the search keeps that entry intact: the in-place updates and every spawned
branch of `defsim_seg`, both outcomes of `defsim_end_seg`, the in-place
updates and every branch of `defsim_cfg_step` (in particular with
mirror-symmetry enabled), and the `new_ruleset.update(ruleset)` merge of
`find_firing_exp_rulesets_for_rings`. -/
theorem quiescence_preservation (L : Nat) (rs : Ruleset)
    (hnd : (ukeys rs).Nodup)
    (h : rlookup rs (List.replicate L 'Q') = some 'Q') :
    (∀ (null : Nat) (nonF_states : List Char) (seg : Seg) (nofire : Bool),
      rlookup (defsim_seg rs null nonF_states seg nofire).1 (List.replicate L 'Q')
          = some 'Q' ∧
      ∀ b ∈ (defsim_seg rs null nonF_states seg nofire).2.2,
        rlookup b (List.replicate L 'Q') = some 'Q') ∧
    (∀ (mseg_len null : Nat) (seg : Seg) (s : Char),
      rlookup (defsim_end_seg rs mseg_len null seg s).2 (List.replicate L 'Q')
        = some 'Q') ∧
    (∀ (cfg : Seg) (numCfgs : Nat) (nonF_states : List Char) (sym opt : Bool),
      rlookup (defsim_cfg_step cfg numCfgs rs nonF_states sym opt).2.1
          (List.replicate L 'Q') = some 'Q' ∧
      ∀ b ∈ (defsim_cfg_step cfg numCfgs rs nonF_states sym opt).2.2,
        rlookup b (List.replicate L 'Q') = some 'Q') ∧
    (∀ m : Ruleset, rlookup (rupdate m rs) (List.replicate L 'Q') = some 'Q') ∧
    (∀ (null : Nat) (arg : Option Ref) (s0 : PyState),
      rlookup
          ((find_firing_init_step null arg s0).1.heap (find_firing_init_step null arg s0).2)
          (List.replicate (null + 1) 'Q') = some 'Q') := by
  refine ⟨?_, ?_, ?_, ?_, ?_⟩
  · intro null nonF_states seg nofire
    constructor
    · simp only [defsim_seg]
      split_ifs with h1 h2 h3 h4 <;>
        first
          | exact h
          | (apply rlookup_preserved rs _ 'Q' h
             intro k hk
             rw [ukeys_map_mk] at hk
             exact ((mem_get_udef_segs seg rs null k).mp hk).2)
    · intro b hb
      obtain ⟨nr, hkeys, _, rfl⟩ :=
        defsim_seg_branches_shape rs null nonF_states seg nofire b hb
      apply rlookup_preserved rs _ 'Q' h
      intro k hk
      rw [hkeys] at hk
      exact ((mem_get_udef_segs seg rs null k).mp hk).2
  · intro mseg_len null seg s
    simp only [defsim_end_seg]
    split_ifs with h1 h2 h3 h4 <;>
      first
        | exact h
        | exact rupdate1_qseg rs L h _ s h1
        | (apply rlookup_preserved _ _ 'Q' (rupdate1_qseg rs L h (seg.take mseg_len) s h1)
           intro k hk
           rw [ukeys_map_mk] at hk
           exact ((mem_get_udef_segs (seg.drop 1) _ null k).mp hk).2)
  · intro cfg numCfgs nonF_states sym opt
    constructor
    · simp only [defsim_cfg_step]
      split_ifs with h1 h2 h3 h4 h5 <;>
        first
          | exact h
          | (apply rlookup_preserved rs _ 'Q' h
             intro k hk
             rw [ukeys_map_mk] at hk
             exact ((mem_get_udef_segs _ _ _ k).mp hk).2)
    · intro b hb
      simp only [defsim_cfg_step] at hb
      split_ifs at hb with h1 h2 h3 h4 h5 <;>
        first
          | exact absurd hb (List.not_mem_nil b)
          | exact rlookup_branch_qseg rs _ (nodup_dedupF _) nonF_states _ sym L h
              (qseg_not_mem_canon _ L (qseg_not_mem_udef _ rs 2 L h)) b hb
          | exact rlookup_branch_qseg rs _ (nodup_get_udef_segs _ rs 2) nonF_states _ sym L h
              (qseg_not_mem_udef _ rs 2 L h) b hb
  · intro m
    exact rlookup_rupdate_of_mem m rs _ 'Q' hnd (mem_of_rlookup rs _ 'Q' h)
  · intro null arg s0
    simp [find_firing_init_step, heapSet, rlookup_rupdate1_self]

/-- C4 witness: a width-3 ruleset containing only QQQ:Q keeps QQQ:Q
through a define-and-simulate step and through a merge. -/
theorem quiescence_preservation_witness :
    rlookup (defsim_seg [(List.replicate 3 'Q', 'Q')] 2 ['R'] ['G','Q','Q','G','Q'] false).1
        (List.replicate 3 'Q') = some 'Q' ∧
    rlookup (rupdate [] [(List.replicate 3 'Q', 'Q')]) (List.replicate 3 'Q') = some 'Q' := by
  have hq := quiescence_preservation 3 [(List.replicate 3 'Q', 'Q')] (by decide) (by decide)
  exact ⟨(hq.1 2 ['R'] ['G','Q','Q','G','Q'] false).1, hq.2.2.2.1 []⟩

/-- C8 counterexample: in `defsim_cfg` with sym=True (cfg GAQ, three
configurations seen, GAQ already defined to F), the forced all-F
propagation path defines AQG to F in place without defining its reversal
GQA, so the reversal stays unmapped — refuting that every defining path
keeps mirror pairs synchronized. -/
theorem mirror_break_forced_path :
    rlookup (defsim_cfg_step ['G','A','Q'] 3 [(['G','A','Q'], 'F')]
        ['Q','G','A'] true false).2.1 ['A','Q','G'] = some 'F' ∧
    rlookup (defsim_cfg_step ['G','A','Q'] 3 [(['G','A','Q'], 'F')]
        ['Q','G','A'] true false).2.1 (['A','Q','G'].reverse) = none := by decide

/-- C8 amended: with sym=True, the assignments made through
`update_ruleset` do keep mirror pairs synchronized — in every branch
spawned for the canonicalized undefined windows, each originally undefined
window and its reversal are both defined and map to the same state; only
the forced all-F paths (misfire propagation and time-optimal forcing)
update the ruleset without mirroring. -/
theorem mirror_sync_update_ruleset (rs : Ruleset) (udef : List Seg)
    (nonF_states : List Char) (fb : Bool) :
    ∀ b ∈ cfg_branches true rs (dedupF (udef.map (fun sg => min sg sg.reverse)))
        nonF_states fb,
      ∀ w ∈ udef, (rlookup b w).isSome ∧ rlookup b w = rlookup b w.reverse := by
  intro b hb w hw
  set U := dedupF (udef.map (fun sg => min sg sg.reverse)) with hUdef
  have hUnd : U.Nodup := nodup_dedupF _
  obtain ⟨nr, hkeys, hndk, rfl⟩ := cfg_branches_shape true rs U hUnd nonF_states fb b hb
  rw [show (if (true : Bool) then mirror_rules nr else nr) = mirror_rules nr from rfl]
  have hcanon : ∀ c ∈ U, c ≤ c.reverse := by
    intro c hc
    rw [hUdef, mem_dedupF] at hc
    obtain ⟨v, _, hmin⟩ := List.mem_map.mp hc
    rcases min_choice v v.reverse with hm | hm
    · have h1 : c = v := by rw [← hmin, hm]
      have h2 := min_le_right v v.reverse
      rw [hmin] at h2
      have h3 : v.reverse = c.reverse := by rw [h1]
      rw [← h3]
      exact h2
    · have h1 : c = v.reverse := by rw [← hmin, hm]
      have h2 : c.reverse = v := by rw [h1, List.reverse_reverse]
      have h3 := min_le_left v v.reverse
      rw [hmin, ← h2] at h3
      exact h3
  have hpair : ∀ c1 ∈ U, ∀ c2 ∈ U, c1.reverse = c2 → c1 = c2 := by
    intro c1 hm1 c2 hm2 hrev
    have ha : c1 ≤ c2 := hrev ▸ hcanon c1 hm1
    have hb2 : c2 ≤ c1 := by
      have h2 := hcanon c2 hm2
      rw [← hrev, List.reverse_reverse] at h2
      exact hrev ▸ h2
    exact le_antisymm ha hb2
  have hcU : min w w.reverse ∈ U := by
    rw [hUdef, mem_dedupF]
    exact List.mem_map_of_mem _ hw
  have hkc : min w w.reverse ∈ ukeys nr := by
    rw [hkeys]
    exact hcU
  obtain ⟨v, hv⟩ := Option.isSome_iff_exists.mp ((rlookup_isSome_iff nr _).mpr hkc)
  have hmlkeys : ukeys (nr.map (fun p => (p.1.reverse, p.2)))
      = (ukeys nr).map List.reverse := ukeys_map_rev nr
  have hmlnd : (ukeys (nr.map (fun p => (p.1.reverse, p.2)))).Nodup := by
    rw [hmlkeys]
    exact List.Nodup.map List.reverse_injective hndk
  have hXnd : (ukeys (mirror_rules nr)).Nodup := nodup_ukeys_rupdate _ nr hndk
  have hXcr : rlookup (mirror_rules nr) (min w w.reverse).reverse = some v := by
    rw [mirror_rules, rlookup_rupdate]
    have hmem : ((min w w.reverse).reverse, v) ∈ nr.map (fun p => (p.1.reverse, p.2)) :=
      List.mem_map_of_mem _ (mem_of_rlookup nr _ v hv)
    rw [rlookup_of_nodup_mem _ _ v
      (by rw [ukeys_reverse]; exact List.nodup_reverse.mpr hmlnd)
      (List.mem_reverse.mpr hmem)]
  have hXc : rlookup (mirror_rules nr) (min w w.reverse) = some v := by
    by_cases hpal : (min w w.reverse).reverse = min w w.reverse
    · rw [← hpal]
      exact hXcr
    · rw [mirror_rules, rlookup_rupdate]
      have hno : min w w.reverse ∉ ukeys (nr.map (fun p => (p.1.reverse, p.2))) := by
        rw [hmlkeys, hkeys]
        intro hmm
        obtain ⟨c2, hc2, hc2rev⟩ := List.mem_map.mp hmm
        have hc2eq := hpair c2 hc2 _ hcU hc2rev
        rw [hc2eq] at hc2rev
        exact hpal hc2rev
      rw [rlookup_eq_none _ _ (by rw [ukeys_reverse, List.mem_reverse]; exact hno)]
      exact hv
  have hbc : rlookup (rupdate rs (mirror_rules nr)) (min w w.reverse) = some v :=
    rlookup_rupdate_of_inner rs _ _ v hXnd hXc
  have hbcr : rlookup (rupdate rs (mirror_rules nr)) (min w w.reverse).reverse = some v :=
    rlookup_rupdate_of_inner rs _ _ v hXnd hXcr
  rcases min_choice w w.reverse with hm | hm
  · have e1 : rlookup (rupdate rs (mirror_rules nr)) w = some v := hm ▸ hbc
    have e2 : rlookup (rupdate rs (mirror_rules nr)) w.reverse = some v := by
      have h2 : (min w w.reverse).reverse = w.reverse := by rw [hm]
      exact h2 ▸ hbcr
    rw [e1, e2]
    exact ⟨rfl, rfl⟩
  · have e1 : rlookup (rupdate rs (mirror_rules nr)) w = some v := by
      have h2 : (min w w.reverse).reverse = w := by rw [hm, List.reverse_reverse]
      exact h2 ▸ hbcr
    have e2 : rlookup (rupdate rs (mirror_rules nr)) w.reverse = some v := hm ▸ hbc
    rw [e1, e2]
    exact ⟨rfl, rfl⟩

/-- C8 amended witness: the first branch for the single undefined window
AQG (canonical form AQG, reversal GQA) defines both orientations to F. -/
theorem mirror_sync_update_ruleset_witness :
    (rlookup [(['A','Q','G'], 'F'), (['G','Q','A'], 'F')] ['A','Q','G']).isSome ∧
    rlookup [(['A','Q','G'], 'F'), (['G','Q','A'], 'F')] ['A','Q','G']
      = rlookup [(['A','Q','G'], 'F'), (['G','Q','A'], 'F')] (['A','Q','G'].reverse) :=
  mirror_sync_update_ruleset [] [['A','Q','G']] ['Q'] true
    [(['A','Q','G'], 'F'), (['G','Q','A'], 'F')] (by decide) ['A','Q','G'] (by decide)

end FsspRing
